import Mathlib

/-!
Verification of the per-client token-bucket rate limiter in `src/index.ts`
of the WEBSecurity repository.

The TypeScript middleware keeps a process-wide `Map<string, Bucket>` where
`Bucket = { tokens: number; last: number }`.  On each request it resolves a
client key, lazily creates a full bucket, refills tokens linearly with
elapsed wall-clock time (capped at `CAPACITY`), and charges a fixed cost of
one token, calling `next()` on admission or answering HTTP 429 on rejection.

We embed the numbers as exact rationals (`ℚ`) for token counts and integer
milliseconds (`ℤ`) for timestamps, the map as an association list, and the
middleware as an explicit state-passing function returning the verdict and
the updated store.
-/

namespace WEBSecurity

/-- Per-client rate-limit state, `type Bucket` in `src/index.ts`:
`tokens` is the remaining token count, `last` the timestamp (ms) of the
last refill. -/
structure Bucket where
  tokens : ℚ
  last : ℤ
deriving DecidableEq

/-- `const RATE = 10` — tokens added per second. -/
def RATE : ℚ := 10

/-- `const CAPACITY = 50` — maximal token capacity. -/
def CAPACITY : ℚ := 50

/-- `const cost = 1` inside `tokenBucket` — tokens charged per request. -/
def cost : ℚ := 1

/-- The request metadata `getKey` consults: `req.ip`,
`req.headers['x-forwarded-for']` and `req.socket.remoteAddress`, each of
which may be absent (`none`) or any string, the empty string included. -/
structure Request where
  ip : Option String
  xForwardedFor : Option String
  socketRemoteAddress : Option String
deriving DecidableEq

/-- JavaScript truthiness for an optional string: `undefined` and `""` are
falsy, every other string is truthy. -/
def truthy : Option String → Bool
  | none => false
  | some s => !(s = "")

/-- JavaScript `a || b` on optional strings: the first operand when it is
truthy, the second otherwise. -/
def jsOr (a b : Option String) : Option String :=
  if truthy a then a else b

/-- `getKey` from `src/index.ts`:
`req.ip || req.headers['x-forwarded-for'] || req.socket.remoteAddress`. -/
def getKey (req : Request) : Option String :=
  jsOr req.ip (jsOr req.xForwardedFor req.socketRemoteAddress)

/-- The literal `'anon'` used as the last-resort client key. -/
def anonKey : String :=
  "anon"

/-- The key actually used by the middleware:
`const key = getKey(req) || 'anon'`. -/
def resolveKey (req : Request) : String :=
  match getKey req with
  | some s => if s = "" then anonKey else s
  | none => anonKey

/-- The bucket store `const buckets = new Map<string, Bucket>()`, embedded
as an association list from client key to bucket. -/
abbrev Store := List (String × Bucket)

/-- `buckets.get(key)`. -/
def Store.get : Store → String → Option Bucket
  | [], _ => none
  | (k, b) :: rest, key => if k = key then some b else Store.get rest key

/-- `buckets.set(key, b)` (also the in-place mutation of a bucket obtained
from the map, which updates the stored entry). -/
def Store.set : Store → String → Bucket → Store
  | [], key, b => [(key, b)]
  | (k, b0) :: rest, key, b =>
      if k = key then (k, b) :: rest else (k, b0) :: Store.set rest key b

/-- The refill step of `tokenBucket`:
`delta = (now - bucket.last) / 1000`; when `delta > 0`,
`tokens = Math.min(CAPACITY, tokens + delta * RATE)` and `last = now`. -/
def refill (b : Bucket) (now : ℤ) : Bucket :=
  let delta : ℚ := ((now - b.last : ℤ) : ℚ) / 1000
  if 0 < delta then
    { tokens := min CAPACITY (b.tokens + delta * RATE), last := now }
  else b

/-- One invocation of `tokenBucket` for an already-resolved key: look the
bucket up (creating `{ tokens: CAPACITY, last: now }` for a new key),
refill, then charge `cost` when `tokens >= cost`.  Returns the admission
verdict and the updated store. -/
def tokenBucketKey (store : Store) (key : String) (now : ℤ) : Bool × Store :=
  let bucket :=
    match store.get key with
    | some b => b
    | none => { tokens := CAPACITY, last := now }
  let b := refill bucket now
  if cost ≤ b.tokens then
    (true, store.set key { b with tokens := b.tokens - cost })
  else
    (false, store.set key b)

/-- The two observable outcomes of the middleware: `next()` is invoked, or
the pipeline is short-circuited with an HTTP 429 rejection response. -/
inductive MwResult
  | callNext
  | status429
deriving DecidableEq

/-- The exported middleware `tokenBucket(req, res, next)`: resolve the
client key and run the bucket algorithm; on admission control passes to
`next`, on rejection a 429 response is produced and `next` is not called. -/
def tokenBucket (store : Store) (req : Request) (now : ℤ) : MwResult × Store :=
  let r := tokenBucketKey store (resolveKey req) now
  (if r.1 then MwResult.callNext else MwResult.status429, r.2)

/-- A whole sequence of middleware invocations (request plus clock reading
for each), threading the store. -/
def runSeq (store : Store) : List (Request × ℤ) → Store
  | [] => store
  | (req, now) :: rest => runSeq (tokenBucket store req now).2 rest

/-- `n` consecutive invocations for a fixed key, all at the same clock
reading `now`; returns the final store and how many were admitted. -/
def runRepeat (key : String) (now : ℤ) (store : Store) : ℕ → Store × ℕ
  | 0 => (store, 0)
  | n + 1 =>
    let r := tokenBucketKey store key now
    let p := runRepeat key now r.2 n
    (p.1, (if r.1 then 1 else 0) + p.2)

/-- A sequence of invocations for one fixed key at the given clock
readings. -/
def runKey (key : String) (store : Store) : List ℤ → Store
  | [] => store
  | t :: ts => runKey key (tokenBucketKey store key t).2 ts

/-- A bucket respects the documented range of `tokens`. -/
def BucketOK (b : Bucket) : Prop := 0 ≤ b.tokens ∧ b.tokens ≤ CAPACITY

/-- Every bucket held by the store respects the range of `tokens`. -/
def StoreOK (s : Store) : Prop := ∀ k b, s.get k = some b → BucketOK b

/-! ### Concrete client keys, requests and buckets used in examples -/

def keyA : String :=
  "1.2.3.4"

def keyB : String :=
  "5.6.7.8"

def keyK : String :=
  "k"

def keyF : String :=
  "proxy-hop"

/-- A request whose transport-level address resolves. -/
def reqA : Request := { ip := some keyA, xForwardedFor := none, socketRemoteAddress := none }

/-- A request carrying only a forwarded-for header. -/
def reqF : Request := { ip := none, xForwardedFor := some keyF, socketRemoteAddress := none }

/-- A bucket that is empty at time 0. -/
def bZero : Bucket := { tokens := 0, last := 0 }

/-- A bucket with five tokens whose last refill was at time 10. -/
def bFive : Bucket := { tokens := 5, last := 10 }

/-! ### Basic lemmas about the store -/

theorem get_set (s : Store) (k k' : String) (b : Bucket) :
    (s.set k b).get k' = if k = k' then some b else s.get k' := by
  induction s with
  | nil =>
    simp [Store.set, Store.get]
  | cons hd tl ih =>
    obtain ⟨k0, b0⟩ := hd
    simp only [Store.set]
    by_cases h0 : k0 = k
    · rw [if_pos h0]
      subst h0
      by_cases h1 : k0 = k' <;> simp [Store.get, h1]
    · rw [if_neg h0]
      by_cases h1 : k0 = k'
      · subst h1
        simp [Store.get, Ne.symm h0]
      · simp [Store.get, h1, ih]

theorem get_set_self (s : Store) (k : String) (b : Bucket) :
    (s.set k b).get k = some b := by
  simp [get_set]

theorem get_set_ne (s : Store) (k k' : String) (b : Bucket) (h : k ≠ k') :
    (s.set k b).get k' = s.get k' := by
  simp [get_set, h]

/-! ### Basic lemmas about refill and a single invocation -/

/-- The refill branch fires exactly when the clock moved strictly forward. -/
theorem refill_eq_ite (b : Bucket) (now : ℤ) :
    refill b now =
      if b.last < now
      then { tokens := min CAPACITY (b.tokens + ((now - b.last : ℤ) : ℚ) / 1000 * RATE),
             last := now }
      else b := by
  have hiff : (0 : ℚ) < ((now - b.last : ℤ) : ℚ) / 1000 ↔ b.last < now := by
    rw [div_pos_iff]
    constructor
    · rintro (⟨h1, _⟩ | ⟨_, h2⟩)
      · have : (0 : ℤ) < now - b.last := by exact_mod_cast h1
        omega
      · norm_num at h2
    · intro h
      exact Or.inl ⟨by exact_mod_cast Int.sub_pos_of_lt h, by norm_num⟩
  simp only [refill, hiff]

theorem refill_of_le (b : Bucket) (now : ℤ) (h : now ≤ b.last) :
    refill b now = b := by
  rw [refill_eq_ite, if_neg (not_lt.mpr h)]

theorem refill_self (b : Bucket) : refill b b.last = b :=
  refill_of_le b b.last le_rfl

theorem refill_tokens_nonneg (b : Bucket) (now : ℤ) (h : 0 ≤ b.tokens) :
    0 ≤ (refill b now).tokens := by
  rw [refill_eq_ite]
  split
  · rename_i hd
    refine le_min (by norm_num [CAPACITY]) ?_
    have h1 : (0 : ℚ) ≤ ((now - b.last : ℤ) : ℚ) := by
      have : (0 : ℤ) ≤ now - b.last := by omega
      exact_mod_cast this
    have hnn : (0 : ℚ) ≤ ((now - b.last : ℤ) : ℚ) / 1000 * RATE :=
      mul_nonneg (div_nonneg h1 (by norm_num)) (by norm_num [RATE])
    exact add_nonneg h hnn
  · exact h

theorem refill_tokens_le (b : Bucket) (now : ℤ) (h : b.tokens ≤ CAPACITY) :
    (refill b now).tokens ≤ CAPACITY := by
  rw [refill_eq_ite]
  split
  · exact min_le_left _ _
  · exact h

theorem refill_last_le (b : Bucket) (now : ℤ) :
    b.last ≤ (refill b now).last := by
  rw [refill_eq_ite]
  split
  · rename_i hd
    exact le_of_lt hd
  · exact le_rfl

/-- One invocation at the bucket's own `last` timestamp: no refill happens
and the bucket is charged exactly when it holds at least `cost` tokens. -/
theorem step_at_last (s : Store) (k : String) (b : Bucket)
    (h : s.get k = some b) :
    tokenBucketKey s k b.last =
      if cost ≤ b.tokens
      then (true, s.set k { tokens := b.tokens - cost, last := b.last })
      else (false, s.set k b) := by
  simp only [tokenBucketKey, h, refill_self]

/-- Unfolding of one invocation when the key already has a bucket. -/
theorem tokenBucketKey_some (s : Store) (k : String) (now : ℤ) (b0 : Bucket)
    (h : s.get k = some b0) :
    tokenBucketKey s k now =
      if cost ≤ (refill b0 now).tokens
      then (true, s.set k { tokens := (refill b0 now).tokens - cost,
                            last := (refill b0 now).last })
      else (false, s.set k (refill b0 now)) := by
  simp only [tokenBucketKey, h]

/-- Unfolding of one invocation for a brand-new key: the bucket is created
full (`tokens = CAPACITY`), no refill applies (`delta = 0`), and the
request is admitted, charged against the full bucket. -/
theorem tokenBucketKey_none (s : Store) (k : String) (now : ℤ)
    (h : s.get k = none) :
    tokenBucketKey s k now =
      (true, s.set k { tokens := CAPACITY - cost, last := now }) := by
  have hr : refill { tokens := CAPACITY, last := now } now
      = { tokens := CAPACITY, last := now } := refill_of_le _ _ le_rfl
  simp only [tokenBucketKey, h, hr]
  rw [if_pos (by norm_num [cost, CAPACITY])]

theorem StoreOK_nil : StoreOK ([] : Store) := by
  intro k b h
  simp [Store.get] at h

theorem StoreOK_set (s : Store) (k : String) (b : Bucket)
    (hs : StoreOK s) (hb : BucketOK b) : StoreOK (s.set k b) := by
  intro k' b' h'
  rw [get_set] at h'
  split at h'
  · cases h'
    exact hb
  · exact hs k' b' h'

theorem BucketOK_refill (b : Bucket) (now : ℤ) (h : BucketOK b) :
    BucketOK (refill b now) :=
  ⟨refill_tokens_nonneg b now h.1, refill_tokens_le b now h.2⟩

theorem BucketOK_charge (b : Bucket) (hb : BucketOK b) (hc : cost ≤ b.tokens) :
    BucketOK { tokens := b.tokens - cost, last := b.last } := by
  constructor
  · show 0 ≤ b.tokens - cost
    linarith
  · show b.tokens - cost ≤ CAPACITY
    have := hb.2
    norm_num [cost]
    linarith

/-- One invocation keeps every stored bucket inside `[0, CAPACITY]`. -/
theorem StoreOK_step (s : Store) (k : String) (now : ℤ) (hs : StoreOK s) :
    StoreOK (tokenBucketKey s k now).2 := by
  cases hget : s.get k with
  | none =>
    rw [tokenBucketKey_none s k now hget]
    exact StoreOK_set s k _ hs ⟨by norm_num [CAPACITY, cost], by norm_num [CAPACITY, cost]⟩
  | some b0 =>
    have hb : BucketOK (refill b0 now) := BucketOK_refill b0 now (hs k b0 hget)
    rw [tokenBucketKey_some s k now b0 hget]
    by_cases hc : cost ≤ (refill b0 now).tokens
    · rw [if_pos hc]
      exact StoreOK_set s k _ hs (BucketOK_charge _ hb hc)
    · rw [if_neg hc]
      exact StoreOK_set s k _ hs hb

theorem StoreOK_runSeq (s : Store) (ops : List (Request × ℤ)) (hs : StoreOK s) :
    StoreOK (runSeq s ops) := by
  induction ops generalizing s with
  | nil => exact hs
  | cons op rest ih =>
    obtain ⟨req, now⟩ := op
    exact ih _ (StoreOK_step s (resolveKey req) now hs)

/-- `step_at_last` with the bucket given by its two fields. -/
theorem step_full (s : Store) (k : String) (t : ℤ) (q : ℚ)
    (h : s.get k = some ⟨q, t⟩) :
    tokenBucketKey s k t =
      if cost ≤ q then (true, s.set k ⟨q - cost, t⟩)
      else (false, s.set k ⟨q, t⟩) :=
  step_at_last s k ⟨q, t⟩ h

/-- `n` same-instant requests against a bucket holding a whole number `m`
of tokens admit exactly `min m n` of them and leave `m - min m n` tokens. -/
theorem runRepeat_spec (n : ℕ) :
    ∀ (m : ℕ) (s : Store) (k : String) (t : ℤ),
      s.get k = some ⟨(m : ℚ), t⟩ →
      (runRepeat k t s n).1.get k = some ⟨((m - min m n : ℕ) : ℚ), t⟩ ∧
      (runRepeat k t s n).2 = min m n := by
  induction n with
  | zero =>
    intro m s k t h
    simpa [runRepeat] using h
  | succ n ih =>
    intro m s k t h
    match m with
    | 0 =>
      have hstep : tokenBucketKey s k t = (false, s.set k ⟨(0 : ℚ), t⟩) := by
        rw [step_full s k t 0 (by simpa using h)]
        rw [if_neg (by norm_num [cost])]
      have h' : (s.set k ⟨(0 : ℚ), t⟩).get k = some ⟨((0 : ℕ) : ℚ), t⟩ := by
        simpa using get_set_self s k ⟨(0 : ℚ), t⟩
      have := ih 0 (s.set k ⟨(0 : ℚ), t⟩) k t h'
      simp only [runRepeat, hstep]
      simpa using this
    | m' + 1 =>
      have hc : cost ≤ ((m' + 1 : ℕ) : ℚ) := by
        norm_num [cost]
      have hstep : tokenBucketKey s k t
          = (true, s.set k ⟨((m' + 1 : ℕ) : ℚ) - cost, t⟩) := by
        rw [step_full s k t ((m' + 1 : ℕ) : ℚ) h, if_pos hc]
      have hcast : ((m' + 1 : ℕ) : ℚ) - cost = ((m' : ℕ) : ℚ) := by
        push_cast [cost]
        ring
      have h' : (s.set k ⟨((m' + 1 : ℕ) : ℚ) - cost, t⟩).get k
          = some ⟨((m' : ℕ) : ℚ), t⟩ := by
        rw [get_set_self, hcast]
      have hih := ih m' _ k t h'
      have hnat : m' + 1 - min (m' + 1) (n + 1) = m' - min m' n := by omega
      have hnat2 : min (m' + 1) (n + 1) = 1 + min m' n := by omega
      simp only [runRepeat, hstep]
      refine ⟨?_, ?_⟩
      · rw [hnat]
        exact hih.1
      · rw [hnat2, hih.2]
        simp

/-- The verdict of an invocation at the bucket's own timestamp is the
plain comparison of the stored tokens against `cost`. -/
theorem verdict_of_get (s : Store) (k : String) (t : ℤ) (q : ℚ)
    (h : s.get k = some ⟨q, t⟩) :
    (tokenBucketKey s k t).1 = if cost ≤ q then true else false := by
  rw [step_full s k t q h]
  by_cases hc : cost ≤ q
  · rw [if_pos hc, if_pos hc]
  · rw [if_neg hc, if_neg hc]

/-- Starting from the empty store, `n ≥ 1` same-instant requests for one
key admit `min 50 n` of them and leave `50 - min 50 n` tokens. -/
theorem runRepeat_fresh (k : String) (now : ℤ) (n : ℕ) (hn : 1 ≤ n) :
    (runRepeat k now [] n).1.get k = some ⟨((50 - min 50 n : ℕ) : ℚ), now⟩ ∧
    (runRepeat k now [] n).2 = min 50 n := by
  match n, hn with
  | n' + 1, _ =>
    have hstep : tokenBucketKey ([] : Store) k now
        = (true, Store.set [] k { tokens := CAPACITY - cost, last := now }) :=
      tokenBucketKey_none [] k now rfl
    have hval : CAPACITY - cost = ((49 : ℕ) : ℚ) := by
      norm_num [CAPACITY, cost]
    have h' : (Store.set [] k { tokens := CAPACITY - cost, last := now }).get k
        = some ⟨((49 : ℕ) : ℚ), now⟩ := by
      rw [get_set_self, hval]
    have hih := runRepeat_spec n' 49 _ k now h'
    have hnat : 49 - min 49 n' = 50 - min 50 (n' + 1) := by omega
    have hnat2 : min 50 (n' + 1) = 1 + min 49 n' := by omega
    simp only [runRepeat, hstep]
    refine ⟨?_, ?_⟩
    · rw [hih.1, ← hnat]
    · rw [hnat2, hih.2]
      simp

/-- An invocation for key `k` does not touch any other key's bucket. -/
theorem step_get_ne (s : Store) (k k' : String) (now : ℤ) (h : k ≠ k') :
    (tokenBucketKey s k now).2.get k' = s.get k' := by
  cases hget : s.get k with
  | none =>
    rw [tokenBucketKey_none s k now hget]
    exact get_set_ne s k k' _ h
  | some b0 =>
    rw [tokenBucketKey_some s k now b0 hget]
    by_cases hc : cost ≤ (refill b0 now).tokens
    · rw [if_pos hc]
      exact get_set_ne s k k' _ h
    · rw [if_neg hc]
      exact get_set_ne s k k' _ h

/-- The verdict for key `k` only depends on `k`'s own bucket. -/
theorem verdict_congr (s s' : Store) (k : String) (now : ℤ)
    (h : s.get k = s'.get k) :
    (tokenBucketKey s k now).1 = (tokenBucketKey s' k now).1 := by
  cases hget : s.get k with
  | none =>
    rw [tokenBucketKey_none s k now hget,
        tokenBucketKey_none s' k now (by rw [← h, hget])]
  | some b0 =>
    rw [tokenBucketKey_some s k now b0 hget,
        tokenBucketKey_some s' k now b0 (by rw [← h, hget])]
    by_cases hc : cost ≤ (refill b0 now).tokens
    · rw [if_pos hc, if_pos hc]
    · rw [if_neg hc, if_neg hc]

/-- After a refill the timestamp either stayed put or was moved forward to
the strictly later clock reading. -/
theorem refill_last_cases (b : Bucket) (now : ℤ) :
    (refill b now).last = b.last ∨ (b.last < now ∧ (refill b now).last = now) := by
  rw [refill_eq_ite]
  split
  · rename_i hlt
    exact Or.inr ⟨hlt, rfl⟩
  · exact Or.inl rfl

/-- An invocation for an existing key leaves some bucket there, whose
timestamp is the refilled one. -/
theorem step_get_self_some (s : Store) (k : String) (now : ℤ) (b : Bucket)
    (h : s.get k = some b) :
    ∃ b', (tokenBucketKey s k now).2.get k = some b'
      ∧ b'.last = (refill b now).last := by
  rw [tokenBucketKey_some s k now b h]
  by_cases hc : cost ≤ (refill b now).tokens
  · rw [if_pos hc]
    exact ⟨_, get_set_self s k _, rfl⟩
  · rw [if_neg hc]
    exact ⟨_, get_set_self s k _, rfl⟩

/-- An invocation never moves an existing bucket's timestamp backwards. -/
theorem step_last_mono (s : Store) (k : String) (now : ℤ) (b : Bucket)
    (h : s.get k = some b) :
    ∃ b', (tokenBucketKey s k now).2.get k = some b' ∧ b.last ≤ b'.last := by
  obtain ⟨b', hb', hlast⟩ := step_get_self_some s k now b h
  exact ⟨b', hb', hlast ▸ refill_last_le b now⟩

theorem truthy_some_true (s : String) (h : s ≠ "") : truthy (some s) = true := by
  simp [truthy, h]

theorem truthy_false_cases (o : Option String) (h : truthy o = false) :
    o = none ∨ o = some "" := by
  cases o with
  | none => exact Or.inl rfl
  | some s =>
    simp [truthy] at h
    exact Or.inr (by rw [h])

theorem jsOr_of_truthy (a b : Option String) (h : truthy a = true) :
    jsOr a b = a := by
  simp [jsOr, h]

theorem jsOr_of_falsy (a b : Option String) (h : truthy a = false) :
    jsOr a b = b := by
  simp [jsOr, h]

/-- Each of the first 50 same-instant requests for a fresh key is
admitted. -/
theorem freshAllOK (k : String) (now : ℤ) (i : ℕ) (hi : i < 50) :
    (tokenBucketKey (runRepeat k now [] i).1 k now).1 = true := by
  match i with
  | 0 =>
    show (tokenBucketKey ([] : Store) k now).1 = true
    rw [tokenBucketKey_none [] k now rfl]
  | j + 1 =>
    have hfresh := runRepeat_fresh k now (j + 1) (by omega)
    rw [verdict_of_get _ k now _ hfresh.1]
    rw [if_pos ?_]
    have : 1 ≤ 50 - min 50 (j + 1) := by omega
    calc cost = ((1 : ℕ) : ℚ) := by norm_num [cost]
      _ ≤ ((50 - min 50 (j + 1) : ℕ) : ℚ) := by exact_mod_cast this

/-- After 50 same-instant requests a fresh key's bucket is empty. -/
theorem fresh50Zero (k : String) (now : ℤ) :
    (runRepeat k now [] 50).1.get k = some { tokens := 0, last := now } := by
  have hfresh := runRepeat_fresh k now 50 (by omega)
  simpa using hfresh.1

/-- The 51st same-instant request for a fresh key is rejected. -/
theorem fresh51False (k : String) (now : ℤ) :
    (tokenBucketKey (runRepeat k now [] 50).1 k now).1 = false := by
  rw [verdict_of_get _ k now _ (fresh50Zero k now)]
  rw [if_neg ?_]
  norm_num [cost]

/-! ### The claims -/

/-- C1: after every invocation of `tokenBucket` in any sequence (any keys,
any timestamps) starting from the initial empty store, every bucket in the
store satisfies `0 ≤ tokens ≤ CAPACITY`; in particular idling never raises
a bucket's tokens above `CAPACITY`. -/
theorem claim_C1_capacity_bound (ops : List (Request × ℤ)) (k : String)
    (b : Bucket) (h : (runSeq [] ops).get k = some b) :
    0 ≤ b.tokens ∧ b.tokens ≤ CAPACITY :=
  StoreOK_runSeq [] ops StoreOK_nil k b h

theorem claim_C1_witness :
    (runSeq [] [(reqA, 0)]).get keyA = some { tokens := CAPACITY - cost, last := 0 } ∧
    (0 ≤ (CAPACITY - cost) ∧ CAPACITY - cost ≤ CAPACITY) := by
  have hkey : resolveKey reqA = keyA := by
    rw [reqA, resolveKey, getKey, jsOr_of_truthy _ _ (truthy_some_true keyA (by decide))]
    simp [keyA]
  have hrun : (runSeq [] [(reqA, 0)]).get keyA
      = some { tokens := CAPACITY - cost, last := 0 } := by
    show ((tokenBucket [] reqA 0).2).get keyA = _
    rw [tokenBucket]
    show ((tokenBucketKey [] (resolveKey reqA) 0).2).get keyA = _
    rw [hkey, tokenBucketKey_none [] keyA 0 rfl]
    exact get_set_self [] keyA _
  exact ⟨hrun, claim_C1_capacity_bound [(reqA, 0)] keyA _ hrun⟩

/-- C2: for a brand-new key the bucket is created with `tokens = CAPACITY`
(the creating request is admitted and charged against the full bucket), the
first `50 = CAPACITY` immediate requests are all admitted, and the 51st
immediate request is rejected. -/
theorem claim_C2_fresh_burst (k : String) (now : ℤ) :
    tokenBucketKey ([] : Store) k now
      = (true, Store.set [] k { tokens := CAPACITY - cost, last := now }) ∧
    (∀ i, i < 50 → (tokenBucketKey (runRepeat k now [] i).1 k now).1 = true) ∧
    (tokenBucketKey (runRepeat k now [] 50).1 k now).1 = false := by
  exact ⟨tokenBucketKey_none [] k now rfl, freshAllOK k now, fresh51False k now⟩

theorem claim_C2_witness :
    tokenBucketKey ([] : Store) keyB 0
      = (true, Store.set [] keyB { tokens := CAPACITY - cost, last := 0 }) ∧
    (tokenBucketKey (runRepeat keyB 0 [] 0).1 keyB 0).1 = true ∧
    (tokenBucketKey (runRepeat keyB 0 [] 50).1 keyB 0).1 = false :=
  ⟨(claim_C2_fresh_burst keyB 0).1,
   (claim_C2_fresh_burst keyB 0).2.1 0 (by norm_num),
   (claim_C2_fresh_burst keyB 0).2.2⟩

/-- C3: a single request against a bucket holding zero tokens since `t0`,
arriving `d > 0` milliseconds later with no intervening requests, is
admitted exactly when the refilled amount `(d/1000) * RATE` covers the
cost. -/
theorem claim_C3_linear_refill (k : String) (t0 d : ℤ) (hd : 0 < d) :
    (tokenBucketKey [(k, { tokens := 0, last := t0 })] k (t0 + d)).1 = true
      ↔ cost ≤ ((d : ℚ) / 1000) * RATE := by
  have hget : Store.get [(k, { tokens := 0, last := t0 })] k
      = some { tokens := 0, last := t0 } := by
    simp [Store.get]
  have hrefill : refill { tokens := 0, last := t0 } (t0 + d)
      = { tokens := min CAPACITY (((d : ℤ) : ℚ) / 1000 * RATE), last := t0 + d } := by
    rw [refill_eq_ite,
        if_pos (show ({ tokens := 0, last := t0 } : Bucket).last < t0 + d by
          show t0 < t0 + d
          omega)]
    have h1 : (t0 + d - ({ tokens := 0, last := t0 } : Bucket).last : ℤ) = d := by
      show t0 + d - t0 = d
      ring
    rw [h1]
    norm_num
  rw [tokenBucketKey_some _ k (t0 + d) _ hget, hrefill]
  by_cases hc : cost ≤ ((d : ℚ) / 1000) * RATE
  · have hmin : cost ≤ min CAPACITY (((d : ℤ) : ℚ) / 1000 * RATE) :=
      le_min (by norm_num [cost, CAPACITY]) (by exact_mod_cast hc)
    rw [if_pos ?_]
    · simp [hc]
    · exact hmin
  · have hmin : ¬ cost ≤ min CAPACITY (((d : ℤ) : ℚ) / 1000 * RATE) := by
      rw [le_min_iff]
      push_neg
      intro _
      exact_mod_cast not_le.mp hc
    rw [if_neg hmin]
    simp [hc]

theorem claim_C3_witness :
    0 < (100 : ℤ) ∧
    ((tokenBucketKey [(keyK, { tokens := 0, last := 0 })] keyK (0 + 100)).1 = true
      ↔ cost ≤ (((100 : ℤ) : ℚ) / 1000) * RATE) ∧
    (tokenBucketKey [(keyK, { tokens := 0, last := 0 })] keyK (0 + 100)).1 = true := by
  have h := claim_C3_linear_refill keyK 0 100 (by norm_num)
  exact ⟨by norm_num, h, h.mpr (by norm_num [cost, RATE])⟩

/-- C9: requests racing on one key serialize (the middleware body is a
single synchronous critical section), so `N` attempts against a bucket
holding exactly `M < N` whole tokens, all at one instant, admit exactly
`M` of them. -/
theorem claim_C9_same_key_race (k : String) (t : ℤ) (M N : ℕ) (hMN : M < N) :
    (runRepeat k t [(k, { tokens := (M : ℚ), last := t })] N).2 = M := by
  have h := runRepeat_spec N M [(k, { tokens := (M : ℚ), last := t })] k t
    (by simp [Store.get])
  rw [h.2]
  omega

theorem claim_C9_witness :
    (runRepeat keyA 0 [(keyA, { tokens := ((2 : ℕ) : ℚ), last := 0 })] 5).2 = 2 :=
  claim_C9_same_key_race keyA 0 2 5 (by norm_num)

/-- C5: the admission check is total over all timestamps — it is a plain
function — and when the clock did not move forward (`now ≤ last`, so
`Δ ≤ 0`) the refill step leaves the bucket unchanged (tokens are never
reduced by it) while the admission check still proceeds on the unchanged
tokens. -/
theorem claim_C5_clock_clamp (s : Store) (k : String) (b : Bucket) (now : ℤ)
    (hb : s.get k = some b) (hle : now ≤ b.last) :
    refill b now = b ∧
    (cost ≤ b.tokens →
      tokenBucketKey s k now
        = (true, s.set k { tokens := b.tokens - cost, last := b.last })) ∧
    (b.tokens < cost →
      tokenBucketKey s k now = (false, s.set k b)) := by
  have hr : refill b now = b := refill_of_le b now hle
  refine ⟨hr, ?_, ?_⟩
  · intro hc
    rw [tokenBucketKey_some s k now b hb, hr, if_pos hc]
  · intro hc
    rw [tokenBucketKey_some s k now b hb, hr, if_neg (not_le.mpr hc)]

theorem claim_C5_witness :
    refill bFive 3 = bFive ∧
    tokenBucketKey [(keyA, bFive)] keyA 3
      = (true, Store.set [(keyA, bFive)] keyA { tokens := bFive.tokens - cost,
                                                last := bFive.last }) := by
  have h := claim_C5_clock_clamp [(keyA, bFive)] keyA bFive 3
    (by simp [Store.get]) (by norm_num [bFive])
  exact ⟨h.1, h.2.1 (by norm_num [bFive, cost])⟩

/-- C6: whenever the post-refill token count is below `cost` the verdict
is the plain 429-rejection value — `next` is not invoked — and the stored
bucket keeps exactly its post-refill value, with nothing subtracted. -/
theorem claim_C6_reject_no_charge (s : Store) (req : Request) (b : Bucket)
    (now : ℤ) (hb : s.get (resolveKey req) = some b)
    (hlow : (refill b now).tokens < cost) :
    tokenBucket s req now
      = (MwResult.status429, s.set (resolveKey req) (refill b now)) := by
  rw [tokenBucket]
  rw [tokenBucketKey_some s (resolveKey req) now b hb, if_neg (not_le.mpr hlow)]
  simp

theorem claim_C6_witness :
    tokenBucket [(keyA, bZero)] reqA 0
      = (MwResult.status429, Store.set [(keyA, bZero)] keyA bZero) := by
  have hkey : resolveKey reqA = keyA := by
    rw [reqA, resolveKey, getKey, jsOr_of_truthy _ _ (truthy_some_true keyA (by decide))]
    simp [keyA]
  have hr : refill bZero 0 = bZero := refill_of_le bZero 0 (by norm_num [bZero])
  have h := claim_C6_reject_no_charge [(keyA, bZero)] reqA bZero 0
    (by rw [hkey]; simp [Store.get]) (by rw [hr]; norm_num [bZero, cost])
  rw [h, hkey, hr]

/-- C7: buckets of distinct keys are independent: any sequence of
invocations for key `A` leaves `B`'s bucket untouched and does not change
the verdict of a subsequent request for `B`. -/
theorem claim_C7_key_isolation (A B : String) (hAB : A ≠ B) (ts : List ℤ)
    (s : Store) (now : ℤ) :
    (runKey A s ts).get B = s.get B ∧
    (tokenBucketKey (runKey A s ts) B now).1 = (tokenBucketKey s B now).1 := by
  have hframe : ∀ (s : Store), (runKey A s ts).get B = s.get B := by
    induction ts with
    | nil =>
      intro s
      rfl
    | cons t ts ih =>
      intro s
      rw [runKey, ih, step_get_ne s A B t hAB]
  exact ⟨hframe s, verdict_congr _ _ B now (hframe s)⟩

theorem claim_C7_witness :
    (runKey keyA [] [0, 0]).get keyB = Store.get [] keyB ∧
    (tokenBucketKey (runKey keyA [] [0, 0]) keyB 7).1
      = (tokenBucketKey [] keyB 7).1 :=
  claim_C7_key_isolation keyA keyB (by decide) [0, 0] [] 7

/-- C8: the resolved client key is always a non-empty string, preferring
the transport-level address `req.ip`, then the forwarded-for header when
that address is unavailable, then the raw socket's remote address, and
finally the fixed literal `'anon'` when none of these resolve. -/
theorem claim_C8_resolver_order (req : Request) :
    resolveKey req ≠ "" ∧
    (∀ s, req.ip = some s → s ≠ "" → resolveKey req = s) ∧
    (truthy req.ip = false →
      ∀ s, req.xForwardedFor = some s → s ≠ "" → resolveKey req = s) ∧
    (truthy req.ip = false → truthy req.xForwardedFor = false →
      ∀ s, req.socketRemoteAddress = some s → s ≠ "" → resolveKey req = s) ∧
    (truthy req.ip = false → truthy req.xForwardedFor = false →
      truthy req.socketRemoteAddress = false → resolveKey req = anonKey) := by
  refine ⟨?_, ?_, ?_, ?_, ?_⟩
  · rw [resolveKey]
    cases hg : getKey req with
    | none =>
      simp [anonKey]
    | some s =>
      by_cases hs : s = ""
      · simp [hs, anonKey]
      · simp [hs]
  · intro s hip hs
    rw [resolveKey, getKey, hip, jsOr_of_truthy _ _ (truthy_some_true s hs)]
    simp [hs]
  · intro hip s hx hs
    rw [resolveKey, getKey, jsOr_of_falsy _ _ hip, hx,
        jsOr_of_truthy _ _ (truthy_some_true s hs)]
    simp [hs]
  · intro hip hx s hra hs
    rw [resolveKey, getKey, jsOr_of_falsy _ _ hip, jsOr_of_falsy _ _ hx, hra]
    simp [hs]
  · intro hip hx hra
    rw [resolveKey, getKey, jsOr_of_falsy _ _ hip, jsOr_of_falsy _ _ hx]
    rcases truthy_false_cases _ hra with h | h
    · rw [h]
    · rw [h]
      simp

theorem claim_C8_witness :
    resolveKey reqF = keyF ∧ resolveKey reqF ≠ "" :=
  ⟨(claim_C8_resolver_order reqF).2.2.1 rfl keyF rfl (by decide),
   (claim_C8_resolver_order reqF).1⟩

/-- C10: a bucket's `last` timestamp is set to the current time at
creation, is afterwards reassigned only to a strictly later time even when
the supplied clock readings are non-monotone, and is therefore
non-decreasing across any sequence of invocations. -/
theorem claim_C10_last_monotone (s : Store) (k : String) (now : ℤ) :
    (s.get k = none →
      ((tokenBucketKey s k now).2.get k).map Bucket.last = some now) ∧
    (∀ b, s.get k = some b →
      ∃ b', (tokenBucketKey s k now).2.get k = some b' ∧ b.last ≤ b'.last ∧
        (b'.last = b.last ∨ (b.last < now ∧ b'.last = now))) ∧
    (∀ (ops : List (Request × ℤ)) b, s.get k = some b →
      ∃ b', (runSeq s ops).get k = some b' ∧ b.last ≤ b'.last) := by
  refine ⟨?_, ?_, ?_⟩
  · intro hnone
    rw [tokenBucketKey_none s k now hnone]
    rw [get_set_self]
    rfl
  · intro b hb
    obtain ⟨b', hb', hlast⟩ := step_get_self_some s k now b hb
    refine ⟨b', hb', hlast ▸ refill_last_le b now, ?_⟩
    rw [hlast]
    exact refill_last_cases b now
  · intro ops
    induction ops generalizing s with
    | nil =>
      intro b hb
      exact ⟨b, hb, le_rfl⟩
    | cons op rest ih =>
      intro b hb
      obtain ⟨req, t⟩ := op
      by_cases hk : resolveKey req = k
      · obtain ⟨b1, hb1, hle1⟩ := step_last_mono s (resolveKey req) t b (hk ▸ hb)
        obtain ⟨b2, hb2, hle2⟩ := ih (tokenBucketKey s (resolveKey req) t).2 b1 (hk ▸ hb1)
        exact ⟨b2, hb2, le_trans hle1 hle2⟩
      · have hframe : ((tokenBucket s req t).2).get k = s.get k :=
          step_get_ne s (resolveKey req) k t hk
        obtain ⟨b2, hb2, hle2⟩ := ih (tokenBucket s req t).2 b (by rw [hframe]; exact hb)
        exact ⟨b2, hb2, hle2⟩

theorem claim_C10_witness :
    ∃ b', (tokenBucketKey [(keyA, bFive)] keyA 3).2.get keyA = some b' ∧
      bFive.last ≤ b'.last ∧
      (b'.last = bFive.last ∨ (bFive.last < 3 ∧ b'.last = 3)) :=
  (claim_C10_last_monotone [(keyA, bFive)] keyA 3).2.1 bFive (by simp [Store.get])

/-- C4: with `CAPACITY = 50`, `RATE = 10` and `cost = 1`, a fresh key at
`t = 0` has its first 50 requests admitted leaving `tokens = 0`, the 51st
request at `t = 0` rejected (tokens stay 0), and a 52nd request at
`t = 500 ms` refills 5 tokens, is admitted and leaves `tokens = 4`. -/
theorem claim_C4_concrete_scenario :
    (∀ i, i < 50 → (tokenBucketKey (runRepeat keyK 0 [] i).1 keyK 0).1 = true) ∧
    (runRepeat keyK 0 [] 50).2 = 50 ∧
    (runRepeat keyK 0 [] 50).1.get keyK = some { tokens := 0, last := 0 } ∧
    (tokenBucketKey (runRepeat keyK 0 [] 50).1 keyK 0).1 = false ∧
    (tokenBucketKey (runRepeat keyK 0 [] 50).1 keyK 0).2.get keyK
      = some { tokens := 0, last := 0 } ∧
    refill { tokens := 0, last := 0 } 500 = { tokens := 5, last := 500 } ∧
    (tokenBucketKey (tokenBucketKey (runRepeat keyK 0 [] 50).1 keyK 0).2 keyK 500).1
      = true ∧
    (tokenBucketKey (tokenBucketKey (runRepeat keyK 0 [] 50).1 keyK 0).2 keyK 500).2.get keyK
      = some { tokens := 4, last := 500 } := by
  have hcount : (runRepeat keyK 0 [] 50).2 = 50 := by
    have := (runRepeat_fresh keyK 0 50 (by omega)).2
    simpa using this
  have h3 : (runRepeat keyK 0 [] 50).1.get keyK = some { tokens := 0, last := 0 } :=
    fresh50Zero keyK 0
  have h51 : tokenBucketKey (runRepeat keyK 0 [] 50).1 keyK 0
      = (false, Store.set (runRepeat keyK 0 [] 50).1 keyK { tokens := 0, last := 0 }) := by
    rw [step_full _ keyK 0 0 h3, if_neg (by norm_num [cost])]
  have h5 : (tokenBucketKey (runRepeat keyK 0 [] 50).1 keyK 0).2.get keyK
      = some { tokens := 0, last := 0 } := by
    rw [h51]
    exact get_set_self _ keyK _
  have h6 : refill { tokens := 0, last := 0 } 500 = { tokens := 5, last := 500 } := by
    rw [refill_eq_ite,
        if_pos (show ({ tokens := 0, last := 0 } : Bucket).last < 500 by norm_num)]
    have : min CAPACITY ((0 : ℚ) + ((500 - ({ tokens := 0, last := 0 } : Bucket).last : ℤ) : ℚ)
        / 1000 * RATE) = 5 := by
      norm_num [CAPACITY, RATE]
    rw [show ((0 : ℚ)) = ({ tokens := 0, last := 0 } : Bucket).tokens from rfl] at this
    rw [this]
  have h52 : tokenBucketKey (tokenBucketKey (runRepeat keyK 0 [] 50).1 keyK 0).2 keyK 500
      = (true, Store.set (tokenBucketKey (runRepeat keyK 0 [] 50).1 keyK 0).2 keyK
          { tokens := 4, last := 500 }) := by
    rw [tokenBucketKey_some _ keyK 500 _ h5, h6]
    rw [if_pos (show cost ≤ ({ tokens := 5, last := 500 } : Bucket).tokens by norm_num [cost])]
    norm_num [cost]
  refine ⟨freshAllOK keyK 0, hcount, h3, ?_, h5, h6, ?_, ?_⟩
  · rw [h51]
  · rw [h52]
  · rw [h52]
    exact get_set_self _ keyK _

theorem claim_C4_witness :
    (tokenBucketKey (runRepeat keyK 0 [] 49).1 keyK 0).1 = true ∧
    (runRepeat keyK 0 [] 50).2 = 50 :=
  ⟨claim_C4_concrete_scenario.1 49 (by norm_num), claim_C4_concrete_scenario.2.1⟩

end WEBSecurity
